import Mathlib

/-!
Verification of the Correction Differ of the mBARTapi repository
(`src/mBARTapi/main.py`).

The repository's algorithmic core consists of two helper functions:

* `highlight_errors(original, corrected)` — splits both strings on
  whitespace, zips the token sequences positionally, renders each pair
  either as a passthrough token (when equal) or as an HTML
  `<del>…</del> <span>…</span>` marked fragment (when different), and
  joins the fragments with single spaces.

* `get_corrections(original, corrected)` — same positional zip; returns
  the full corrected token list together with a dict mapping each
  differing original token to its corrected counterpart, later
  occurrences overwriting earlier ones.

We embed these shallowly: Python strings become `String`, `str.split()`
becomes `pySplit`, the dict becomes an association list with Python's
update-in-place / append-if-new insertion semantics, and the module-level
mutable state (the tokenizer's `src_lang` attribute, the only module
global ever mutated) is threaded explicitly where a claim is about
side effects.
-/

namespace MBARTapi

/-- Worker for `pySplit`: scan the character list, accumulating the
current token in reverse; a whitespace character ends the current token
(if nonempty), and runs of whitespace produce no empty tokens. -/
def splitWsAux (cs : List Char) (cur : List Char) : List String :=
  match cs with
  | [] => if cur = [] then [] else [String.mk cur.reverse]
  | c :: rest =>
    if c.isWhitespace then
      if cur = [] then splitWsAux rest []
      else String.mk cur.reverse :: splitWsAux rest []
    else splitWsAux rest (c :: cur)

/-- Python `str.split()` with no arguments: split on runs of whitespace,
discarding empty tokens (so leading/trailing whitespace produces no
tokens and `"".split() == []`).  Modelled with Lean's
`Char.isWhitespace` as the whitespace class. -/
def pySplit (s : String) : List String :=
  splitWsAux s.toList []

/-- The marked fragment emitted by `highlight_errors` for a differing
token pair: the original token with the removed (red `<del>`) treatment
followed by the corrected token with the added (green `<span>`)
treatment.  This is the f-string on line 54 of `main.py`. -/
def markedFragment (o c : String) : String :=
  "<del style=\x27color:red;\x27>" ++ o ++ "</del> <span style=\x27color:green;\x27>" ++ c ++ "</span>"

/-- The list `highlighted` built by the loop of `highlight_errors`:
one fragment per zipped token pair, marked when the tokens differ,
passthrough when they are equal. -/
def highlightFragments (original corrected : String) : List String :=
  ((pySplit original).zip (pySplit corrected)).map
    (fun p => if p.1 ≠ p.2 then markedFragment p.1 p.2 else p.1)

/-- `highlight_errors` from `main.py` (lines 48–57): build the fragment
list and join it with single spaces (`" ".join(highlighted)`). -/
def highlight_errors (original corrected : String) : String :=
  String.intercalate " " (highlightFragments original corrected)

/-- Python dict assignment `d[k] = v`: if the key is present, overwrite
its value in place (keeping the entry's original position); otherwise
append the new entry at the end.  The dict is modelled as an
association list in insertion order. -/
def dictInsert (d : List (String × String)) (k v : String) : List (String × String) :=
  if d.any (fun p => p.1 = k) then
    d.map (fun p => if p.1 = k then (k, v) else p)
  else
    d ++ [(k, v)]

/-- One iteration of the loop body of `get_corrections`: insert
`corrections[o_token] = c_token` exactly when the tokens differ. -/
def corrStep (d : List (String × String)) (p : String × String) :
    List (String × String) :=
  if p.1 ≠ p.2 then dictInsert d p.1 p.2 else d

/-- The dict-building loop of `get_corrections`: fold `corrStep` over
the zipped token pairs, starting from the empty dict. -/
def buildCorrections (pairs : List (String × String)) : List (String × String) :=
  pairs.foldl corrStep []

/-- `get_corrections` from `main.py` (lines 60–67): returns the full
corrected token list and the corrections dict. -/
def get_corrections (original corrected : String) :
    List String × List (String × String) :=
  let corrected_tokens := pySplit corrected
  let corrections := buildCorrections ((pySplit original).zip corrected_tokens)
  (corrected_tokens, corrections)

/-- Python dict lookup `d[k]` (as an `Option`): the value of the first —
and, for dicts built by `dictInsert`, only — entry with key `k`. -/
def lookupDict (d : List (String × String)) (k : String) : Option String :=
  (d.find? (fun p => p.1 = k)).map (fun p => p.2)

/-- The module-level mutable state of `main.py` visible to these
functions: the only module global ever written is
`mbart_tokenizer.src_lang` (mutated by `correct_grammar_mbart`, not by
the Differ). -/
structure ModuleState where
  src_lang : String
deriving DecidableEq

/-- State-passing embedding of `highlight_errors`: the Python function
body references no module global, so the module state is returned
unchanged and the result ignores it. -/
def highlight_errors_st (σ : ModuleState) (original corrected : String) :
    ModuleState × String :=
  (σ, highlight_errors original corrected)

/-- State-passing embedding of `get_corrections`: likewise reads and
writes no module state. -/
def get_corrections_st (σ : ModuleState) (original corrected : String) :
    ModuleState × (List String × List (String × String)) :=
  (σ, get_corrections original corrected)

/-- Spec-side rendering of the `highlight` algorithm, following the
spec's words: iterate positionally up to the length of the shorter
token sequence; at each position emit the token unchanged if original
and corrected tokens are identical, otherwise emit the marked fragment;
concatenate with single-space separators. -/
def highlight_spec (original corrected : String) : String :=
  let ot := pySplit original
  let ct := pySplit corrected
  String.intercalate " " ((List.range (min ot.length ct.length)).map
    (fun i => if ot.getD i "" = ct.getD i "" then ot.getD i ""
              else markedFragment (ot.getD i "") (ct.getD i "")))

/-! ### Helper lemmas -/

/-- Mapping a function over a positional zip equals iterating over the
indices below the length of the shorter list. -/
theorem zip_map_eq_range_map {α β γ : Type} (d : α) (e : β) (f : α → β → γ) :
    ∀ (l : List α) (m : List β),
      (l.zip m).map (fun p => f p.1 p.2) =
        (List.range (min l.length m.length)).map (fun i => f (l.getD i d) (m.getD i e)) := by
  intro l
  induction l with
  | nil => intro m; simp
  | cons a l ih =>
    intro m
    cases m with
    | nil => simp
    | cons b m =>
      simp only [List.zip_cons_cons, List.map_cons, List.length_cons,
        Nat.succ_min_succ, List.range_succ_eq_map, List.map_map, Function.comp,
        List.getD_cons_zero, List.getD_cons_succ]
      exact congrArg _ (ih m)

/-- Zipping a list with itself and rendering each pair yields the list
back, because no pair ever differs. -/
theorem zip_self_render (l : List String) :
    (l.zip l).map (fun p => if p.1 ≠ p.2 then markedFragment p.1 p.2 else p.1) = l := by
  induction l with
  | nil => rfl
  | cons a l ih =>
    simp only [List.zip_cons_cons, List.map_cons, ih]
    simp

/-- After overwriting an existing key in place, looking up that key
finds the new value. -/
theorem find?_overwrite_present (d : List (String × String)) (key val : String)
    (h : d.any (fun p => p.1 = key) = true) :
    (d.map (fun p => if p.1 = key then (key, val) else p)).find?
      (fun p => p.1 = key) = some (key, val) := by
  induction d with
  | nil => simp at h
  | cons q d ih =>
    by_cases hq : q.1 = key
    · simp only [List.map_cons, if_pos hq]
      exact List.find?_cons_of_pos _ (by simp)
    · simp only [List.map_cons, if_neg hq]
      rw [List.find?_cons_of_neg _ (by simp [hq])]
      refine ih ?_
      simpa [hq] using h

/-- Overwriting one key in place does not change lookups of any other
key. -/
theorem lookupDict_overwrite_other (d : List (String × String)) (key val k : String)
    (hk : key ≠ k) :
    lookupDict (d.map (fun p => if p.1 = key then (key, val) else p)) k =
      lookupDict d k := by
  induction d with
  | nil => rfl
  | cons q d ih =>
    by_cases hq : q.1 = key
    · simp only [List.map_cons, if_pos hq]
      unfold lookupDict
      rw [List.find?_cons_of_neg _ (by simp [hk]),
        List.find?_cons_of_neg _ (by simp [hq, hk])]
      exact ih
    · simp only [List.map_cons, if_neg hq]
      by_cases hqk : q.1 = k
      · unfold lookupDict
        rw [List.find?_cons_of_pos _ (by simp [hqk]),
          List.find?_cons_of_pos _ (by simp [hqk])]
      · unfold lookupDict
        rw [List.find?_cons_of_neg _ (by simp [hqk]),
          List.find?_cons_of_neg _ (by simp [hqk])]
        exact ih

/-- Appending a fresh key at the end: lookups of that key find the new
value, lookups of other keys are unchanged. -/
theorem lookupDict_append_absent (d : List (String × String)) (key val k : String)
    (h : ∀ p ∈ d, p.1 ≠ key) :
    lookupDict (d ++ [(key, val)]) k =
      if key = k then some val else lookupDict d k := by
  induction d with
  | nil =>
    by_cases hk : key = k
    · simp [lookupDict, List.find?, hk]
    · simp [lookupDict, List.find?, hk]
  | cons q d ih =>
    have hq : q.1 ≠ key := h q (by simp)
    by_cases hqk : q.1 = k
    · have hkey : key ≠ k := fun he => hq (hqk.trans he.symm)
      unfold lookupDict
      rw [if_neg hkey, List.cons_append, List.find?_cons_of_pos _ (by simp [hqk]),
        List.find?_cons_of_pos _ (by simp [hqk])]
    · rw [List.cons_append]
      unfold lookupDict
      rw [List.find?_cons_of_neg _ (by simp [hqk]),
        List.find?_cons_of_neg _ (by simp [hqk])]
      exact ih (fun p hp => h p (by simp [hp]))

/-- Python dict assignment, observed through lookup: after
`d[key] = val`, looking up `key` gives `val` and every other lookup is
unchanged. -/
theorem lookupDict_dictInsert (d : List (String × String)) (key val k : String) :
    lookupDict (dictInsert d key val) k =
      if key = k then some val else lookupDict d k := by
  unfold dictInsert
  by_cases h : d.any (fun p => p.1 = key) = true
  · rw [if_pos h]
    by_cases hk : key = k
    · subst hk
      rw [if_pos rfl]
      unfold lookupDict
      rw [find?_overwrite_present d key val h]
      rfl
    · rw [if_neg hk, lookupDict_overwrite_other d key val k hk]
  · rw [if_neg h, lookupDict_append_absent]
    intro p hp hpk
    exact h (List.any_eq_true.mpr ⟨p, hp, by simp [hpk]⟩)

/-- Lookup after the dict-building loop: the value found for `k` is the
second component of the last zipped pair whose tokens differ and whose
original token is `k`; if there is none, the accumulator's binding for
`k` survives.  This is Python's overwrite-on-duplicate-key semantics. -/
theorem lookupDict_foldl_corrStep (k : String) :
    ∀ (pairs d : List (String × String)),
      lookupDict (pairs.foldl corrStep d) k =
        ((pairs.filter (fun p => p.1 ≠ p.2 ∧ p.1 = k)).getLast?).elim
          (lookupDict d k) (fun p => some p.2) := by
  intro pairs
  induction pairs with
  | nil => intro d; simp
  | cons p pairs ih =>
    intro d
    rw [List.foldl_cons, ih]
    by_cases h1 : p.1 = p.2
    · have hstep : corrStep d p = d := by simp [corrStep, h1]
      have hfilt : (p :: pairs).filter (fun q => q.1 ≠ q.2 ∧ q.1 = k) =
          pairs.filter (fun q => q.1 ≠ q.2 ∧ q.1 = k) := by
        simp [List.filter_cons, h1]
      rw [hstep, hfilt]
    · have hstep : corrStep d p = dictInsert d p.1 p.2 := by simp [corrStep, h1]
      rw [hstep, lookupDict_dictInsert]
      by_cases h2 : p.1 = k
      · rw [if_pos h2]
        have hfilt : (p :: pairs).filter (fun q => q.1 ≠ q.2 ∧ q.1 = k) =
            p :: pairs.filter (fun q => q.1 ≠ q.2 ∧ q.1 = k) := by
          rw [List.filter_cons, if_pos (decide_eq_true ⟨h1, h2⟩)]
        rw [hfilt]
        cases hfl : pairs.filter (fun q => q.1 ≠ q.2 ∧ q.1 = k) with
        | nil => simp
        | cons r t =>
          rw [List.getLast?_cons_cons]
          rcases Option.isSome_iff_exists.mp
            (List.getLast?_isSome.mpr (List.cons_ne_nil r t)) with ⟨x, hx⟩
          rw [hx]
          rfl
      · rw [if_neg h2]
        have hfilt : (p :: pairs).filter (fun q => q.1 ≠ q.2 ∧ q.1 = k) =
            pairs.filter (fun q => q.1 ≠ q.2 ∧ q.1 = k) := by
          simp [List.filter_cons, h2]
        rw [hfilt]

/-- Every entry of `dictInsert d key val` is the inserted pair or an
entry of `d`. -/
theorem mem_dictInsert (d : List (String × String)) (key val : String)
    (q : String × String) (h : q ∈ dictInsert d key val) :
    q = (key, val) ∨ q ∈ d := by
  unfold dictInsert at h
  by_cases hm : d.any (fun p => p.1 = key) = true
  · rw [if_pos hm] at h
    rcases List.mem_map.mp h with ⟨r, hr, hrq⟩
    by_cases hrk : r.1 = key
    · left; rw [← hrq, if_pos hrk]
    · right; rw [← hrq, if_neg hrk]; exact hr
  · rw [if_neg hm] at h
    rcases List.mem_append.mp h with h | h
    · right; exact h
    · left; simpa using h

/-- Every entry of the built dict comes from a zipped pair whose two
tokens differ (or from the accumulator). -/
theorem mem_foldl_corrStep :
    ∀ (pairs d : List (String × String)) (q : String × String),
      q ∈ pairs.foldl corrStep d → q ∈ d ∨ (q ∈ pairs ∧ q.1 ≠ q.2) := by
  intro pairs
  induction pairs with
  | nil => intro d q h; left; simpa using h
  | cons p pairs ih =>
    intro d q h
    rw [List.foldl_cons] at h
    rcases ih (corrStep d p) q h with h2 | h2
    · by_cases h1 : p.1 = p.2
      · have hstep : corrStep d p = d := by simp [corrStep, h1]
        rw [hstep] at h2
        exact Or.inl h2
      · have hstep : corrStep d p = dictInsert d p.1 p.2 := by simp [corrStep, h1]
        rw [hstep] at h2
        rcases mem_dictInsert d p.1 p.2 q h2 with h3 | h3
        · right
          refine ⟨?_, ?_⟩
          · rw [h3, Prod.mk.eta]; exact List.mem_cons_self p pairs
          · rw [h3]; exact h1
        · exact Or.inl h3
    · exact Or.inr ⟨List.mem_cons_of_mem p h2.1, h2.2⟩

/-- The in-place overwrite map does not change any entry's key. -/
theorem keys_map_overwrite (d : List (String × String)) (key val : String) :
    (d.map (fun p => if p.1 = key then (key, val) else p)).map Prod.fst =
      d.map Prod.fst := by
  rw [List.map_map]
  refine List.map_congr_left ?_
  intro r _
  by_cases hr : r.1 = key
  · simp [Function.comp, hr]
  · simp [Function.comp, hr]

/-- Key membership after a dict insertion: the inserted key, or any key
already present. -/
theorem keys_dictInsert_mem (d : List (String × String)) (key val k : String) :
    k ∈ (dictInsert d key val).map Prod.fst ↔ (k = key ∨ k ∈ d.map Prod.fst) := by
  unfold dictInsert
  by_cases h : d.any (fun p => p.1 = key) = true
  · rw [if_pos h, keys_map_overwrite]
    constructor
    · exact Or.inr
    · rintro (rfl | hm)
      · rcases List.any_eq_true.mp h with ⟨r, hr, hrk⟩
        simp only [decide_eq_true_eq] at hrk
        exact List.mem_map.mpr ⟨r, hr, hrk⟩
      · exact hm
  · rw [if_neg h]
    rw [List.map_append]
    simp [or_comm]

/-- Key membership after the dict-building loop: exactly the keys of
the accumulator plus the original tokens of differing zipped pairs. -/
theorem keys_foldl_corrStep (k : String) :
    ∀ (pairs d : List (String × String)),
      k ∈ (pairs.foldl corrStep d).map Prod.fst ↔
        (k ∈ d.map Prod.fst ∨ ∃ p ∈ pairs, p.1 = k ∧ p.1 ≠ p.2) := by
  intro pairs
  induction pairs with
  | nil => intro d; simp
  | cons p pairs ih =>
    intro d
    rw [List.foldl_cons, ih]
    by_cases h1 : p.1 = p.2
    · have hstep : corrStep d p = d := by simp [corrStep, h1]
      rw [hstep]
      constructor
      · rintro (hd | ⟨q, hq, hqk, hqne⟩)
        · exact Or.inl hd
        · exact Or.inr ⟨q, List.mem_cons_of_mem p hq, hqk, hqne⟩
      · rintro (hd | ⟨q, hq, hqk, hqne⟩)
        · exact Or.inl hd
        · rcases List.mem_cons.mp hq with rfl | hq
          · exact absurd h1 hqne
          · exact Or.inr ⟨q, hq, hqk, hqne⟩
    · have hstep : corrStep d p = dictInsert d p.1 p.2 := by simp [corrStep, h1]
      rw [hstep]
      constructor
      · rintro (hd | ⟨q, hq, hqk, hqne⟩)
        · rcases (keys_dictInsert_mem d p.1 p.2 k).mp hd with he | hd
          · exact Or.inr ⟨p, List.mem_cons_self p pairs, he.symm, h1⟩
          · exact Or.inl hd
        · exact Or.inr ⟨q, List.mem_cons_of_mem p hq, hqk, hqne⟩
      · rintro (hd | ⟨q, hq, hqk, hqne⟩)
        · exact Or.inl ((keys_dictInsert_mem d p.1 p.2 k).mpr (Or.inr hd))
        · rcases List.mem_cons.mp hq with rfl | hq
          · exact Or.inl ((keys_dictInsert_mem d q.1 q.2 k).mpr (Or.inl hqk.symm))
          · exact Or.inr ⟨q, hq, hqk, hqne⟩

/-- A key has a value in an association list iff it is among the keys. -/
theorem exists_val_iff_mem_keys (d : List (String × String)) (k : String) :
    (∃ v, (k, v) ∈ d) ↔ k ∈ d.map Prod.fst := by
  constructor
  · rintro ⟨v, hv⟩
    exact List.mem_map_of_mem Prod.fst hv
  · intro h
    rcases List.mem_map.mp h with ⟨p, hp, hpk⟩
    exact ⟨p.2, by rw [← hpk]; simpa using hp⟩

/-- Membership in a positional zip, phrased through indices below the
shorter length. -/
theorem mem_zip_iff_getD (l m : List String) (a b : String) :
    (a, b) ∈ l.zip m ↔
      ∃ i, i < min l.length m.length ∧ l.getD i "" = a ∧ m.getD i "" = b := by
  constructor
  · intro h
    rcases List.mem_iff_getElem.mp h with ⟨i, hi, hget⟩
    have hi2 : i < min l.length m.length := by
      simpa [List.length_zip] using hi
    have hl : i < l.length := lt_of_lt_of_le hi2 (min_le_left _ _)
    have hm : i < m.length := lt_of_lt_of_le hi2 (min_le_right _ _)
    rw [List.getElem_zip] at hget
    refine ⟨i, hi2, ?_, ?_⟩
    · rw [List.getD_eq_getElem l "" hl]; exact congrArg Prod.fst hget
    · rw [List.getD_eq_getElem m "" hm]; exact congrArg Prod.snd hget
  · rintro ⟨i, hi, ha, hb⟩
    have hl : i < l.length := lt_of_lt_of_le hi (min_le_left _ _)
    have hm : i < m.length := lt_of_lt_of_le hi (min_le_right _ _)
    have hzl : i < (l.zip m).length := by simpa [List.length_zip] using hi
    have : (l.zip m)[i] = (a, b) := by
      rw [List.getElem_zip]
      rw [List.getD_eq_getElem l "" hl] at ha
      rw [List.getD_eq_getElem m "" hm] at hb
      rw [ha, hb]
    rw [← this]
    exact List.getElem_mem hzl

/-- The fragment at position `i` of the highlight rendering: marked when
the tokens at `i` differ, passthrough otherwise. -/
theorem highlightFragments_getD (o c : String) (i : Nat)
    (h : i < min (pySplit o).length (pySplit c).length) :
    (highlightFragments o c).getD i "" =
      if (pySplit o).getD i "" ≠ (pySplit c).getD i "" then
        markedFragment ((pySplit o).getD i "") ((pySplit c).getD i "")
      else (pySplit o).getD i "" := by
  have hl : i < (pySplit o).length := lt_of_lt_of_le h (min_le_left _ _)
  have hm : i < (pySplit c).length := lt_of_lt_of_le h (min_le_right _ _)
  have hz : i < ((pySplit o).zip (pySplit c)).length := by
    simpa [List.length_zip] using h
  have hlen : i < (highlightFragments o c).length := by
    unfold highlightFragments
    simpa [List.length_zip] using h
  unfold highlightFragments at hlen ⊢
  rw [List.getD_eq_getElem _ "" hlen, List.getElem_map, List.getElem_zip,
    List.getD_eq_getElem _ "" hl, List.getD_eq_getElem _ "" hm]

/-- Entry count never exceeds dict size plus one after an insertion. -/
theorem length_dictInsert_le (d : List (String × String)) (key val : String) :
    (dictInsert d key val).length ≤ d.length + 1 := by
  unfold dictInsert
  split
  · simp
  · simp

/-- The dict built by the loop has at most one entry per iterated pair. -/
theorem length_foldl_corrStep_le :
    ∀ (pairs d : List (String × String)),
      (pairs.foldl corrStep d).length ≤ d.length + pairs.length := by
  intro pairs
  induction pairs with
  | nil => intro d; simp
  | cons p pairs ih =>
    intro d
    rw [List.foldl_cons]
    have hstep : (corrStep d p).length ≤ d.length + 1 := by
      unfold corrStep
      split
      · exact length_dictInsert_le d p.1 p.2
      · omega
    have := ih (corrStep d p)
    simp only [List.length_cons]
    omega

/-! ### Claim theorems -/

/-- C1: `highlight` splits both inputs on whitespace, iterates
positionally up to the shorter token sequence's length, emits the token
unchanged where the tokens agree (case-sensitive exact comparison) and
the removed/added marked fragment where they differ, and joins the
fragments with single spaces; in particular on
`("teh cat sat", "the cat sat")` only the first token is marked. -/
theorem C1_highlight_positional_algorithm :
    (∀ original corrected : String,
        highlight_errors original corrected = highlight_spec original corrected) ∧
    highlight_errors "teh cat sat" "the cat sat" =
      "<del style=\x27color:red;\x27>teh</del> <span style=\x27color:green;\x27>the</span> cat sat" := by
  refine ⟨fun o c => ?_, rfl⟩
  unfold highlight_errors highlightFragments highlight_spec
  rw [zip_map_eq_range_map "" "" (fun a b => if a ≠ b then markedFragment a b else a)]
  simp only [ite_not]

/-- C4: highlighting a string against itself marks nothing and returns
the single-space join of its token sequence (the whitespace-normalized
input); in particular `highlight("a b c", "a b c") = "a b c"`. -/
theorem C4_highlight_idempotent :
    (∀ x : String, highlight_errors x x = String.intercalate " " (pySplit x)) ∧
    highlight_errors "a b c" "a b c" = "a b c" := by
  refine ⟨fun x => ?_, rfl⟩
  unfold highlight_errors highlightFragments
  rw [zip_self_render]

/-- C5: `highlight` is a total function on string pairs (the embedding
returns a `String` for every input, mirroring that the Python code can
raise no exception), and an empty original, an empty corrected, or both
empty yield the empty result. -/
theorem C5_highlight_total_empty :
    (∀ c : String, highlight_errors "" c = "") ∧
    (∀ o : String, highlight_errors o "" = "") ∧
    highlight_errors "" "" = "" := by
  refine ⟨fun c => rfl, fun o => ?_, rfl⟩
  unfold highlight_errors highlightFragments
  have h0 : pySplit "" = [] := rfl
  rw [h0, List.zip_nil_right]
  rfl

/-- C6: both functions are pure and deterministic: threading the module
state (the only mutable module global) through them leaves it unchanged,
the results do not depend on it, and repeated invocations on the same
arguments agree. -/
theorem C6_pure_deterministic :
    ∀ (σ σ₂ : ModuleState) (original corrected : String),
      (highlight_errors_st σ original corrected).1 = σ ∧
      (highlight_errors_st σ original corrected).2 =
        (highlight_errors_st σ₂ original corrected).2 ∧
      (get_corrections_st σ original corrected).1 = σ ∧
      (get_corrections_st σ original corrected).2 =
        (get_corrections_st σ₂ original corrected).2 ∧
      highlight_errors original corrected = highlight_errors original corrected ∧
      get_corrections original corrected = get_corrections original corrected :=
  fun _ _ _ _ => ⟨rfl, rfl, rfl, rfl, rfl, rfl⟩

/-- C9: the corrected-token component of `diff`'s result depends only on
the corrected argument: it is the whitespace split of `corrected` for
every original, untruncated even when the original has fewer tokens. -/
theorem C9_corrected_tokens_independent :
    (∀ (o₁ o₂ c : String), (get_corrections o₁ c).1 = (get_corrections o₂ c).1) ∧
    (∀ (o c : String), (get_corrections o c).1 = pySplit c) ∧
    (get_corrections "a" "a b c").1 = ["a", "b", "c"] :=
  ⟨fun _ _ _ => rfl, fun _ _ => rfl, rfl⟩

/-- C2: `diff` returns the full corrected token sequence together with
a map whose binding for each key `k` is exactly the corrected token of
the last position (below the shorter length) where the original token is
`k` and differs from its corrected counterpart — later occurrences
overwrite earlier ones; in particular
`diff("a a b", "a x b") = (["a","x","b"], {"a": "x"})`. -/
theorem C2_diff_full_tokens_and_overwrite_map :
    (∀ o c : String, (get_corrections o c).1 = pySplit c) ∧
    (∀ o c k : String,
        lookupDict (get_corrections o c).2 k =
          ((((pySplit o).zip (pySplit c)).filter
              (fun p => p.1 ≠ p.2 ∧ p.1 = k)).getLast?).map (fun p => p.2)) ∧
    get_corrections "a a b" "a x b" = (["a", "x", "b"], [("a", "x")]) := by
  refine ⟨fun o c => rfl, fun o c k => ?_, rfl⟩
  have hrep : (get_corrections o c).2 =
      ((pySplit o).zip (pySplit c)).foldl corrStep [] := rfl
  rw [hrep, lookupDict_foldl_corrStep]
  cases (((pySplit o).zip (pySplit c)).filter
      (fun p => p.1 ≠ p.2 ∧ p.1 = k)).getLast? with
  | none => rfl
  | some p => rfl

/-- C3: both functions compare only positions below the shorter token
sequence's length: the highlight rendering has exactly that many
fragments, every entry of the correction map arises from such a
position, and (the embedding being total functions) no exception is
raised; in particular `diff("a b", "a b c")` has an empty map. -/
theorem C3_trailing_tokens_dropped :
    (∀ o c : String, (highlightFragments o c).length =
        min (pySplit o).length (pySplit c).length) ∧
    (∀ (o c : String) (q : String × String), q ∈ (get_corrections o c).2 →
        ∃ i, i < min (pySplit o).length (pySplit c).length ∧
          (pySplit o).getD i "" = q.1 ∧ (pySplit c).getD i "" = q.2) ∧
    get_corrections "a b" "a b c" = (["a", "b", "c"], []) := by
  refine ⟨fun o c => ?_, fun o c q hq => ?_, rfl⟩
  · unfold highlightFragments
    simp [List.length_zip]
  · have hmem := mem_foldl_corrStep ((pySplit o).zip (pySplit c)) [] q hq
    rcases hmem with h | h
    · simp at h
    · rcases (mem_zip_iff_getD (pySplit o) (pySplit c) q.1 q.2).mp
        (by rw [Prod.mk.eta]; exact h.1) with ⟨i, hi, ho, hc⟩
      exact ⟨i, hi, ho, hc⟩

/-- Witness for C3 at a concrete input: the single entry of
`diff("a a", "a x")` arises from a position below the shorter length. -/
theorem C3_trailing_tokens_dropped_witness :
    (("a", "x") ∈ (get_corrections "a a" "a x").2) ∧
    ∃ i, i < min (pySplit "a a").length (pySplit "a x").length ∧
      (pySplit "a a").getD i "" = ("a", "x").1 ∧
      (pySplit "a x").getD i "" = ("a", "x").2 :=
  ⟨by decide,
   C3_trailing_tokens_dropped.2.1 "a a" "a x" ("a", "x") (by decide)⟩

/-- C7: both functions are a single bounded pass: the zipped pair list
iterated by both loops has exactly `min` of the token counts many
elements, the highlight rendering has exactly that many fragments, and
the correction map has at most that many entries.  The embedding's
structural recursion witnesses termination on every input. -/
theorem C7_single_pass_bounded :
    ∀ o c : String,
      ((pySplit o).zip (pySplit c)).length =
        min (pySplit o).length (pySplit c).length ∧
      (highlightFragments o c).length =
        min (pySplit o).length (pySplit c).length ∧
      (get_corrections o c).2.length ≤
        min (pySplit o).length (pySplit c).length := by
  intro o c
  refine ⟨List.length_zip _ _, ?_, ?_⟩
  · unfold highlightFragments
    simp [List.length_zip]
  · have hrep : (get_corrections o c).2 =
        ((pySplit o).zip (pySplit c)).foldl corrStep [] := rfl
    rw [hrep]
    have := length_foldl_corrStep_le ((pySplit o).zip (pySplit c)) []
    simpa [List.length_zip] using this

/-- C8: no identity mapping ever appears in the correction map: every
entry has a key different from its value, because entries are only
inserted at positions where the tokens differ. -/
theorem C8_no_identity_entries (o c : String) :
    ∀ q ∈ (get_corrections o c).2, q.1 ≠ q.2 := by
  intro q hq
  rcases mem_foldl_corrStep ((pySplit o).zip (pySplit c)) [] q hq with h | h
  · simp at h
  · exact h.2

/-- Witness for C8 at a concrete input: the entry of
`diff("a a", "a x")` has distinct key and value. -/
theorem C8_no_identity_entries_witness :
    (("a", "x") ∈ (get_corrections "a a" "a x").2) ∧ ("a" : String) ≠ "x" :=
  ⟨by decide, C8_no_identity_entries "a a" "a x" ("a", "x") (by decide)⟩

/-- C10: `highlight` and `diff` agree on the changed positions: a token
`k` is a key of the correction map exactly when some position below the
shorter length carries original token `k`, a differing corrected token,
and a fragment rendered with the removed/added marked treatment. -/
theorem C10_map_keys_match_marked_fragments :
    ∀ o c k : String,
      (∃ v, (k, v) ∈ (get_corrections o c).2) ↔
        ∃ i, i < min (pySplit o).length (pySplit c).length ∧
          (pySplit o).getD i "" = k ∧
          (pySplit o).getD i "" ≠ (pySplit c).getD i "" ∧
          (highlightFragments o c).getD i "" =
            markedFragment ((pySplit o).getD i "") ((pySplit c).getD i "") := by
  intro o c k
  have hrep : (get_corrections o c).2 =
      ((pySplit o).zip (pySplit c)).foldl corrStep [] := rfl
  rw [hrep, exists_val_iff_mem_keys, keys_foldl_corrStep]
  constructor
  · rintro (h | ⟨p, hp, hpk, hpne⟩)
    · simp at h
    · rcases (mem_zip_iff_getD (pySplit o) (pySplit c) p.1 p.2).mp
        (by rw [Prod.mk.eta]; exact hp) with ⟨i, hi, ho, hc⟩
      refine ⟨i, hi, ho.trans hpk, ?_, ?_⟩
      · rw [ho, hc]; exact hpne
      · rw [highlightFragments_getD o c i hi, if_pos]
        rw [ho, hc]; exact hpne
  · rintro ⟨i, hi, hok, hne, _⟩
    refine Or.inr ⟨((pySplit o).getD i "", (pySplit c).getD i ""), ?_, hok, hne⟩
    exact (mem_zip_iff_getD (pySplit o) (pySplit c) _ _).mpr ⟨i, hi, rfl, rfl⟩

end MBARTapi
